import Mathlib

/- Shallow embedding of the hybrid retrieval pipeline of the RAG FastAPI
service: score normalization and hybrid fusion (`app/services/retrieval_service.py`),
BM25 result shaping (`app/services/bm25_service.py`), the reranker
(`app/services/rerank_service.py`) and the recursive character text splitter
(`app/utils/text_splitter.py`).  Python floats are modelled as rationals,
Python lists as Lean lists, Python dicts as insertion-ordered association
lists, Python strings as `String`/`List Char`.  External collaborators
(embedding provider, vector store, the BM25Okapi raw scorer, the cross-encoder
model) enter as explicit parameters holding their responses. -/

namespace RAGSpec

/-! ## Python's stable sort (`list.sort(key=..., reverse=True)`)

Python's `sort` is stable; with `reverse=True` it orders keys descending while
equal-key elements keep their original relative order.  This is exactly
`List.insertionSort` with the relation `key b ≤ key a`. -/

def sortDescBy {α : Type} (key : α → ℚ) (l : List α) : List α :=
  List.insertionSort (fun a b => key b ≤ key a) l

theorem sortDescBy_perm {α : Type} (key : α → ℚ) (l : List α) :
    List.Perm (sortDescBy key l) l :=
  List.perm_insertionSort _ l

theorem mem_sortDescBy {α : Type} {key : α → ℚ} {l : List α} {x : α} :
    x ∈ sortDescBy key l ↔ x ∈ l :=
  (sortDescBy_perm key l).mem_iff

theorem sortDescBy_sorted {α : Type} (key : α → ℚ) (l : List α) :
    List.Sorted (fun a b => key b ≤ key a) (sortDescBy key l) := by
  haveI : IsTotal α (fun a b => key b ≤ key a) :=
    ⟨fun a b => (le_total (key b) (key a)).imp id id⟩
  haveI : IsTrans α (fun a b => key b ≤ key a) :=
    ⟨fun _ _ _ hab hbc => le_trans hbc hab⟩
  exact List.sorted_insertionSort _ l

theorem filter_orderedInsert_of_key_eq {α : Type} (key : α → ℚ) (c : ℚ) (x : α)
    (hx : key x = c) :
    ∀ t : List α,
      (List.orderedInsert (fun a b => key b ≤ key a) x t).filter
          (fun y => decide (key y = c))
        = x :: t.filter (fun y => decide (key y = c))
  | [] => by simp [List.orderedInsert, hx]
  | y :: ys => by
    by_cases h : key y ≤ key x
    · rw [List.orderedInsert, if_pos h, List.filter_cons_of_pos (by simp [hx])]
    · have hyc : ¬ (key y = c) := by
        intro hyc
        exact h (le_of_eq (hyc.trans hx.symm))
      rw [List.orderedInsert, if_neg h, List.filter_cons_of_neg (by simp [hyc]),
        List.filter_cons_of_neg (by simp [hyc]),
        filter_orderedInsert_of_key_eq key c x hx ys]

theorem filter_orderedInsert_of_key_ne {α : Type} (key : α → ℚ) (c : ℚ) (x : α)
    (hx : ¬ (key x = c)) :
    ∀ t : List α,
      (List.orderedInsert (fun a b => key b ≤ key a) x t).filter
          (fun y => decide (key y = c))
        = t.filter (fun y => decide (key y = c))
  | [] => by simp [List.orderedInsert, hx]
  | y :: ys => by
    by_cases h : key y ≤ key x
    · rw [List.orderedInsert, if_pos h, List.filter_cons_of_neg (by simp [hx])]
    · rw [List.orderedInsert, if_neg h, List.filter_cons,
        filter_orderedInsert_of_key_ne key c x hx ys, List.filter_cons]

/-- Stability of the descending sort: within each equal-key class the original
order is kept. -/
theorem sortDescBy_stable {α : Type} (key : α → ℚ) (l : List α) (c : ℚ) :
    (sortDescBy key l).filter (fun y => decide (key y = c))
      = l.filter (fun y => decide (key y = c)) := by
  induction l with
  | nil => rfl
  | cons a t ih =>
    show (List.orderedInsert _ a (sortDescBy key t)).filter _ = _
    by_cases ha : key a = c
    · rw [filter_orderedInsert_of_key_eq key c a ha, ih, List.filter_cons,
        if_pos (by simpa using ha)]
    · rw [filter_orderedInsert_of_key_ne key c a ha, ih, List.filter_cons,
        if_neg (by simpa using ha)]

/-! ## Score normalization

`RetrievalService._normalize_scores` and `BM25Service.normalize_scores`
(textually identical in the source): min-max scaling to [0, 1], all-equal
distributions map to all ones, empty input maps to empty output.
`py_min`/`py_max` model Python's `min()`/`max()` builtins on a nonempty list
(the value at `[]` is irrelevant: the source never calls them there). -/

def py_min : List ℚ → ℚ
  | [] => 0
  | s :: rest => rest.foldl min s

def py_max : List ℚ → ℚ
  | [] => 0
  | s :: rest => rest.foldl max s

def normalize_scores (scores : List ℚ) : List ℚ :=
  match scores with
  | [] => []
  | s :: rest =>
    if py_max (s :: rest) = py_min (s :: rest) then
      List.replicate (s :: rest).length 1
    else
      (s :: rest).map fun x =>
        (x - py_min (s :: rest)) / (py_max (s :: rest) - py_min (s :: rest))

theorem foldl_min_le (l : List ℚ) (a : ℚ) : l.foldl min a ≤ a := by
  induction l generalizing a with
  | nil => exact le_refl a
  | cons x t ih =>
    exact le_trans (ih (min a x)) (min_le_left a x)

theorem foldl_min_le_mem (l : List ℚ) (a x : ℚ) (hx : x ∈ l) : l.foldl min a ≤ x := by
  induction l generalizing a with
  | nil => cases hx
  | cons y t ih =>
    rcases List.mem_cons.1 hx with rfl | hx
    · exact le_trans (foldl_min_le t (min a x)) (min_le_right a x)
    · exact ih (min a y) hx

theorem le_foldl_max (l : List ℚ) (a : ℚ) : a ≤ l.foldl max a := by
  induction l generalizing a with
  | nil => exact le_refl a
  | cons x t ih =>
    exact le_trans (le_max_left a x) (ih (max a x))

theorem le_foldl_max_mem (l : List ℚ) (a x : ℚ) (hx : x ∈ l) : x ≤ l.foldl max a := by
  induction l generalizing a with
  | nil => cases hx
  | cons y t ih =>
    rcases List.mem_cons.1 hx with rfl | hx
    · exact le_trans (le_max_right a x) (le_foldl_max t (max a x))
    · exact ih (max a y) hx

theorem foldl_min_mem (l : List ℚ) (a : ℚ) : l.foldl min a ∈ a :: l := by
  induction l generalizing a with
  | nil => exact List.mem_singleton.2 rfl
  | cons x t ih =>
    rcases List.mem_cons.1 (ih (min a x)) with h | h
    · rcases min_choice a x with hc | hc
      · exact List.mem_cons.2 (Or.inl (h.trans hc))
      · exact List.mem_cons.2 (Or.inr (List.mem_cons.2 (Or.inl (h.trans hc))))
    · exact List.mem_cons.2 (Or.inr (List.mem_cons.2 (Or.inr h)))

theorem foldl_max_mem (l : List ℚ) (a : ℚ) : l.foldl max a ∈ a :: l := by
  induction l generalizing a with
  | nil => exact List.mem_singleton.2 rfl
  | cons x t ih =>
    rcases List.mem_cons.1 (ih (max a x)) with h | h
    · rcases max_choice a x with hc | hc
      · exact List.mem_cons.2 (Or.inl (h.trans hc))
      · exact List.mem_cons.2 (Or.inr (List.mem_cons.2 (Or.inl (h.trans hc))))
    · exact List.mem_cons.2 (Or.inr (List.mem_cons.2 (Or.inr h)))

theorem py_min_le {scores : List ℚ} {x : ℚ} (hx : x ∈ scores) : py_min scores ≤ x := by
  cases scores with
  | nil => cases hx
  | cons s rest =>
    rcases List.mem_cons.1 hx with rfl | hx
    · exact foldl_min_le rest x
    · exact foldl_min_le_mem rest s x hx

theorem le_py_max {scores : List ℚ} {x : ℚ} (hx : x ∈ scores) : x ≤ py_max scores := by
  cases scores with
  | nil => cases hx
  | cons s rest =>
    rcases List.mem_cons.1 hx with rfl | hx
    · exact le_foldl_max rest x
    · exact le_foldl_max_mem rest s x hx

theorem py_min_mem {scores : List ℚ} (h : scores ≠ []) : py_min scores ∈ scores := by
  cases scores with
  | nil => exact absurd rfl h
  | cons s rest => exact foldl_min_mem rest s

theorem py_max_mem {scores : List ℚ} (h : scores ≠ []) : py_max scores ∈ scores := by
  cases scores with
  | nil => exact absurd rfl h
  | cons s rest => exact foldl_max_mem rest s

theorem normalize_scores_length (scores : List ℚ) :
    (normalize_scores scores).length = scores.length := by
  cases scores with
  | nil => rfl
  | cons s rest =>
    simp only [normalize_scores]
    split
    · rw [List.length_replicate]
    · rw [List.length_map]

theorem normalize_scores_nil_iff (scores : List ℚ) :
    normalize_scores scores = [] ↔ scores = [] := by
  constructor
  · intro h
    have := normalize_scores_length scores
    rw [h] at this
    exact List.length_eq_zero.1 this.symm
  · intro h; rw [h]; rfl

theorem normalize_scores_mem_bounds {scores : List ℚ} {x : ℚ}
    (hx : x ∈ normalize_scores scores) : 0 ≤ x ∧ x ≤ 1 := by
  cases scores with
  | nil => cases hx
  | cons s rest =>
    simp only [normalize_scores] at hx
    rcases Decidable.em (py_max (s :: rest) = py_min (s :: rest)) with heq | hne
    · rw [if_pos heq] at hx
      rw [List.eq_of_mem_replicate hx]
      exact ⟨zero_le_one, le_refl 1⟩
    · rw [if_neg hne] at hx
      rcases List.mem_map.1 hx with ⟨y, hy, rfl⟩
      have hpos : 0 < py_max (s :: rest) - py_min (s :: rest) := by
        have h1 : py_min (s :: rest) ≤ s := py_min_le (List.mem_cons_self s rest)
        have h2 : s ≤ py_max (s :: rest) := le_py_max (List.mem_cons_self s rest)
        exact sub_pos.2 (lt_of_le_of_ne (h1.trans h2) (Ne.symm (fun h => hne h)))
      constructor
      · exact div_nonneg (sub_nonneg.2 (py_min_le hy)) (le_of_lt hpos)
      · rw [div_le_one hpos]
        exact sub_le_sub_right (le_py_max hy) _

theorem normalize_scores_getD_bounds (scores : List ℚ) (i : ℕ) :
    0 ≤ (normalize_scores scores).getD i 0 ∧ (normalize_scores scores).getD i 0 ≤ 1 := by
  rcases Nat.lt_or_ge i (normalize_scores scores).length with h | h
  · rw [List.getD_eq_getElem _ _ h]
    exact normalize_scores_mem_bounds (List.getElem_mem h)
  · rw [List.getD_eq_default _ _ h]
    exact ⟨le_refl 0, zero_le_one⟩

theorem normalize_scores_all_eq {scores : List ℚ}
    (h : ∀ x ∈ scores, ∀ y ∈ scores, x = y) (hne : scores ≠ []) :
    normalize_scores scores = List.replicate scores.length 1 := by
  cases scores with
  | nil => exact absurd rfl hne
  | cons s rest =>
    simp only [normalize_scores]
    rw [if_pos (h _ (py_max_mem (List.cons_ne_nil s rest)) _
      (py_min_mem (List.cons_ne_nil s rest)))]

theorem normalize_scores_minmax {scores : List ℚ}
    (h : ¬ ∀ x ∈ scores, ∀ y ∈ scores, x = y) :
    ∀ i, i < scores.length →
      (normalize_scores scores).getD i 0
        = (scores.getD i 0 - py_min scores) / (py_max scores - py_min scores) := by
  cases scores with
  | nil => intro i hi; cases Nat.not_lt_zero i hi
  | cons s rest =>
    have hne : ¬ py_max (s :: rest) = py_min (s :: rest) := by
      intro heq
      refine h (fun x hx y hy => ?_)
      have h1 : x ≤ py_min (s :: rest) := heq ▸ le_py_max hx
      have h2 : py_min (s :: rest) ≤ x := py_min_le hx
      have h3 : y ≤ py_min (s :: rest) := heq ▸ le_py_max hy
      have h4 : py_min (s :: rest) ≤ y := py_min_le hy
      exact (le_antisymm h1 h2).trans (le_antisymm h3 h4).symm
    intro i hi
    simp only [normalize_scores, if_neg hne]
    have hi' : i < ((s :: rest).map fun x =>
        (x - py_min (s :: rest)) / (py_max (s :: rest) - py_min (s :: rest))).length := by
      rw [List.length_map]; exact hi
    rw [List.getD_eq_getElem _ _ hi', List.getElem_map, List.getD_eq_getElem _ _ hi]

/-! ## Data model

Vector-store hits carry `chunk_id`, `content`, `score` (plus opaque metadata
that the fusion code copies through unchanged and that we omit).  Fused
entries additionally carry `vector_score` and `bm25_score`; the degraded
paths return the raw store hits, whose dicts lack those keys — modelled with
`Option`. -/

structure VecResult where
  chunk_id : String
  content : String
  score : ℚ
deriving DecidableEq

structure Entry where
  chunk_id : String
  content : String
  score : ℚ
  vector_score : Option ℚ
  bm25_score : Option ℚ
deriving DecidableEq

def VecResult.toEntry (r : VecResult) : Entry :=
  ⟨r.chunk_id, r.content, r.score, none, none⟩

/-! Python dicts as insertion-ordered association lists: assigning to an
existing key updates the value in place (keeping its position); a new key is
appended.  Lookup returns the stored value, `keyIdx` is
`list(d.keys()).index(k)`. -/

def upsertA {β : Type} (m : List (String × β)) (k : String) (v : β) :
    List (String × β) :=
  if m.any (fun p => decide (p.1 = k)) then
    m.map (fun p => if p.1 = k then (k, v) else p)
  else m ++ [(k, v)]

def alookup {β : Type} (m : List (String × β)) (k : String) : Option β :=
  (m.find? (fun p => decide (p.1 = k))).map (fun p => p.2)

def keyIdx {β : Type} (m : List (String × β)) (k : String) : ℕ :=
  m.findIdx (fun p => decide (p.1 = k))

/-! ## BM25 service (`app/services/bm25_service.py`)

The BM25Okapi scorer and the jieba tokenizer are external collaborators; the
raw `get_scores` output enters as a parameter (`rawScores`, one raw score per
corpus position). -/

structure Bm25Hit where
  index : ℕ
  score : ℚ
deriving DecidableEq

structure ChunkMeta where
  chunk_id : String
  content : String
deriving DecidableEq

/-- Model of the metadata list built by `BM25Service.build_index`: one record
per candidate document, aligned with the tokenized corpus by position. -/
def build_metadata (docs : List VecResult) : List ChunkMeta :=
  docs.map (fun d => ⟨d.chunk_id, d.content⟩)

def enumFromN {α : Type} : ℕ → List α → List (ℕ × α)
  | _, [] => []
  | i, x :: xs => (i, x) :: enumFromN (i + 1) xs

/-- Model of `BM25Service.search` given the raw scorer output: enumerate the
scores, keep strictly positive ones, sort descending (Python stable sort),
truncate to `top_k`. -/
def bm25_search (rawScores : List ℚ) (topK : ℕ) : List Bm25Hit :=
  let results := ((enumFromN 0 rawScores).filter (fun p => decide (0 < p.2))).map
    (fun p => Bm25Hit.mk p.1 p.2)
  (sortDescBy (fun h => h.score) results).take topK

/-! ## Hybrid fusion (`RetrievalService`, `app/services/retrieval_service.py`) -/

/-- Model of the `bm25_map` dict of `RetrievalService._combine_results`
(lines 109-121): map each BM25 hit position to a chunk id through the
collection metadata, skipping out-of-range positions and empty chunk ids. -/
def bm25_map (metadata : List ChunkMeta) (hits : List Bm25Hit) :
    List (String × ℚ) :=
  hits.foldl
    (fun m h =>
      if h.index < metadata.length then
        if (metadata.getD h.index ⟨"", ""⟩).chunk_id ≠ "" then
          upsertA m (metadata.getD h.index ⟨"", ""⟩).chunk_id h.score
        else m
      else m)
    []

/-- Model of one iteration of the fusion loop of
`RetrievalService._combine_results` (lines 132-146): the combined entry built
for `vector_results[idx]`, given the normalized vector scores `nvs`, the
`bm25_map` association list `bmap` and the normalized BM25 scores `nbs`. -/
def fuse_entry (alpha : ℚ) (nvs : List ℚ) (bmap : List (String × ℚ))
    (nbs : List ℚ) (idx : ℕ) (result : VecResult) : Entry :=
  let vector_score := nvs.getD idx 0
  let bm25_score0 := (alookup bmap result.chunk_id).getD 0
  let bm25_score :=
    if 0 < bm25_score0 ∧ nbs ≠ [] then nbs.getD (keyIdx bmap result.chunk_id) 0
    else bm25_score0
  { chunk_id := result.chunk_id
    content := result.content
    score := alpha * vector_score + (1 - alpha) * bm25_score
    vector_score := some vector_score
    bm25_score := some bm25_score }

/-- Model of the `combined_map` dict accumulation (a fold over the enumerated
vector results, upserting by chunk id). -/
def combine_fold (alpha : ℚ) (nvs : List ℚ) (bmap : List (String × ℚ))
    (nbs : List ℚ) : ℕ → List VecResult → List (String × Entry) →
    List (String × Entry)
  | _, [], cmap => cmap
  | i, r :: rs, cmap =>
      combine_fold alpha nvs bmap nbs (i + 1) rs
        (upsertA cmap r.chunk_id (fuse_entry alpha nvs bmap nbs i r))

/-- The fused candidates in vector-stage order: `list(combined_map.values())`
before sorting (Python dicts preserve first-insertion order). -/
def combine_pre (alpha : ℚ) (vectorResults : List VecResult)
    (bm25Hits : List Bm25Hit) (metadata : List ChunkMeta) : List Entry :=
  let bmap := bm25_map metadata bm25Hits
  let nvs := normalize_scores (vectorResults.map (fun r => r.score))
  let bm25_scores := bmap.map (fun p => p.2)
  let nbs := if bm25_scores = [] then [] else normalize_scores bm25_scores
  (combine_fold alpha nvs bmap nbs 0 vectorResults []).map (fun p => p.2)

/-- Model of `RetrievalService._combine_results` (lines 97-152): fuse, then
sort descending by combined score (Python stable sort). -/
def combine_results (alpha : ℚ) (vectorResults : List VecResult)
    (bm25Hits : List Bm25Hit) (metadata : List ChunkMeta) : List Entry :=
  sortDescBy (fun e => e.score) (combine_pre alpha vectorResults bm25Hits metadata)

/-- Model of the `if score_threshold:` filter of `_hybrid_search` (lines
88-93).  Python float truthiness: a threshold of exactly `0.0` (like `None`)
skips the filter. -/
def apply_threshold (threshold : Option ℚ) (l : List Entry) : List Entry :=
  match threshold with
  | none => l
  | some t => if t ≠ 0 then l.filter (fun e => decide (t ≤ e.score)) else l

/-- The metadata `_combine_results` reads from `self.bm25_service.metadata`:
freshly rebuilt from the vector results when they are nonempty (build ran just
before), otherwise whatever stale metadata a previous call left (possibly
empty). -/
def hybrid_metadata (vectorResults : List VecResult)
    (staleMeta : List ChunkMeta) : List ChunkMeta :=
  if vectorResults = [] then staleMeta else build_metadata vectorResults

/-- Model of `RetrievalService._hybrid_search` (lines 51-95).  `vectorResults`
is the vector-store response to the `2*topK` over-fetch; `rawScores` is the
BM25 scorer output; `buildFails` records whether `bm25_service.build_index`
raised (line 73); on failure the except arm returns `vector_results[:top_k]`
verbatim (line 75). -/
def hybrid_search_inner (alpha : ℚ) (topK : ℕ) (threshold : Option ℚ)
    (vectorResults : List VecResult) (rawScores : List ℚ)
    (staleMeta : List ChunkMeta) (buildFails : Bool) : List Entry :=
  if vectorResults ≠ [] ∧ buildFails = true then
    (vectorResults.take topK).map VecResult.toEntry
  else
    (apply_threshold threshold
      (combine_results alpha vectorResults (bm25_search rawScores (topK * 2))
        (hybrid_metadata vectorResults staleMeta))).take topK

/-- Model of `RetrievalService.hybrid_search` (lines 20-32): dispatch on
`use_hybrid`; the pure vector path delegates to the store (response
`vectorOnlyResponse`, threshold applied by the store itself). -/
def hybrid_search (useHybrid : Bool) (alpha : ℚ) (topK : ℕ)
    (threshold : Option ℚ) (vectorOnlyResponse : List VecResult)
    (vectorResults : List VecResult) (rawScores : List ℚ)
    (staleMeta : List ChunkMeta) (buildFails : Bool) : List Entry :=
  if useHybrid then
    hybrid_search_inner alpha topK threshold vectorResults rawScores staleMeta
      buildFails
  else vectorOnlyResponse.map VecResult.toEntry

/-! ## Reranker (`RerankService`, `app/services/rerank_service.py`)

The cross-encoder is an external collaborator: `predictResult` is its response
(`none` models a raised exception, caught at line 51).  `useRerank` is the
configuration flag, `modelLoaded` records whether `_load_model` succeeded (on
load failure `use_rerank` is set to `False` and `model` stays `None`, so both
flags go through the same disabled branch).  `topK` is `Optional[int]`; Python
int truthiness makes both `None` and `0` fall back (`top_k or
settings.rerank_top_k`, and `documents[:top_k] if top_k else documents`). -/

structure RDoc where
  content : String
  rerank_score : Option ℚ
deriving DecidableEq

/-- Model of `top_k = top_k or settings.rerank_top_k` (line 36): `None` and
`0` are falsy and fall back to the configured default. -/
def resolve_topk (topK : Option ℕ) (rerankTopKDefault : ℕ) : ℕ :=
  match topK with
  | some k => if k ≠ 0 then k else rerankTopKDefault
  | none => rerankTopKDefault

/-- Model of `RerankService.rerank` (lines 26-53). -/
def rerank (useRerank modelLoaded : Bool) (rerankTopKDefault : ℕ)
    (documents : List RDoc) (topK : Option ℕ)
    (predictResult : Option (List ℚ)) : List RDoc :=
  if useRerank = false ∨ modelLoaded = false ∨ documents = [] then
    match topK with
    | some k => if k ≠ 0 then documents.take k else documents
    | none => documents
  else
    match predictResult with
    | none => documents.take (resolve_topk topK rerankTopKDefault)
    | some scores =>
        (sortDescBy (fun d => d.rerank_score.getD 0)
          ((documents.zip scores).map
            (fun p => { p.1 with rerank_score := some p.2 }))).take
          (resolve_topk topK rerankTopKDefault)

/-! ## Text splitter (`RecursiveCharacterTextSplitter`, `app/utils/text_splitter.py`)

Texts are modelled as `List Char`.  Token counting uses the splitter's
explicit degraded mode (`self.encoding = None`, lines 22-31): one token per
character.  `splitOnL` models Python `str.split(sep)` for a nonempty
separator (leftmost, non-overlapping occurrences; empty pieces kept). -/

def count_tokens (text : List Char) : ℕ := text.length

/-- Checks that `sep` is an initial segment of `s`. -/
def headMatches : List Char → List Char → Bool
  | [], _ => true
  | _ :: _, [] => false
  | a :: as, b :: bs => a == b && headMatches as bs

/-- Fuel-indexed splitting scan; fuel bounds the number of consumed
characters, so `s.length` fuel always suffices and the zero-fuel arm is
unreachable. -/
def splitOnFuel (sep : List Char) : ℕ → List Char → List Char →
    List (List Char)
  | _, [], acc => [acc.reverse]
  | 0, s, acc => [acc.reverse ++ s]
  | fuel + 1, c :: rest, acc =>
    if headMatches sep (c :: rest) then
      splitOnFuel sep fuel (List.drop sep.length (c :: rest)) []
        |> (acc.reverse :: ·)
    else splitOnFuel sep fuel rest (c :: acc)

/-- Model of Python `text.split(separator)` for the nonempty separators the
splitter uses (the empty separator is short-circuited at line 44 before any
split). -/
def splitOnL (sep s : List Char) : List (List Char) :=
  match sep with
  | [] => [s]
  | _ :: _ => splitOnFuel sep s.length s []

/-- Lines 51-53: every piece except the last gets the separator re-appended. -/
def attach_separator (sep : List Char) : List (List Char) → List (List Char)
  | [] => []
  | [x] => [x]
  | x :: y :: xs => (x ++ sep) :: attach_separator sep (y :: xs)

/-- Model of the packing loop of `_split_text` (lines 48-69), state
`(chunks, current_chunk)`.  Faithful to the source: after flushing
`current_chunk` and recursing into an oversized piece, `current_chunk` is NOT
cleared (the stale value is kept and can be packed or flushed again). -/
def pack_pieces (chunkSize : ℕ) (recur : List Char → List (List Char)) :
    List (List Char) → List (List Char) × List Char →
    List (List Char) × List Char
  | [], st => st
  | p :: ps, (chunks, current) =>
    if current = [] then pack_pieces chunkSize recur ps (chunks, p)
    else if count_tokens (current ++ p) ≤ chunkSize then
      pack_pieces chunkSize recur ps (chunks, current ++ p)
    else
      if chunkSize < count_tokens p then
        pack_pieces chunkSize recur ps (chunks ++ [current] ++ recur p, current)
      else pack_pieces chunkSize recur ps (chunks ++ [current], p)

/-- Model of `RecursiveCharacterTextSplitter._split_text` (lines 33-71). -/
def split_text_rec (chunkSize : ℕ) : List (List Char) → List Char →
    List (List Char)
  | seps, text =>
    if text = [] then []
    else
      match seps with
      | [] => [text]
      | sep :: rest =>
        if sep = [] then [text]
        else
          let st := pack_pieces chunkSize (split_text_rec chunkSize rest)
            (attach_separator sep (splitOnL sep text)) ([], [])
          st.1 ++ (if st.2 = [] then [] else [st.2])

/-- Model of `_get_overlap_text` (lines 93-103) in the one-token-per-character
mode; only called with `overlap_tokens > 0` (guard at line 80). -/
def get_overlap_text (text : List Char) (overlapTokens : ℕ) : List Char :=
  if text.length ≤ overlapTokens then text
  else text.drop (text.length - overlapTokens)

/-- Model of `RecursiveCharacterTextSplitter.split_text` (lines 73-91). -/
def split_text (chunkSize overlap : ℕ) (seps : List (List Char))
    (text : List Char) : List (List Char) :=
  if count_tokens text ≤ chunkSize then [text]
  else
    let chunks := split_text_rec chunkSize seps text
    if 0 < overlap then
      (enumFromN 0 chunks).map
        (fun p =>
          if p.1 = 0 then p.2
          else get_overlap_text (chunks.getD (p.1 - 1) []) overlap ++ p.2)
    else chunks

/-- The default separator list of the splitter (line 19). -/
def default_separators : List (List Char) :=
  [['\n', '\n'], ['\n'], ['。'], ['！'], ['？'], [' '], []]

/-! ## Supporting lemmas about the embedded operations -/

theorem mem_upsertA {β : Type} {m : List (String × β)} {k : String} {v : β}
    {p : String × β} (hp : p ∈ upsertA m k v) : p ∈ m ∨ p = (k, v) := by
  unfold upsertA at hp
  by_cases h : m.any (fun p => decide (p.1 = k)) = true
  · rw [if_pos h] at hp
    rcases List.mem_map.1 hp with ⟨q, hq, rfl⟩
    by_cases hqk : q.1 = k
    · right; rw [if_pos hqk]
    · left; rw [if_neg hqk]; exact hq
  · rw [if_neg h] at hp
    rcases List.mem_append.1 hp with h1 | h1
    · exact Or.inl h1
    · exact Or.inr (List.mem_singleton.1 h1)

theorem upsertA_keys_of_hit {β : Type} (m : List (String × β)) (k : String)
    (v : β) (h : m.any (fun p => decide (p.1 = k)) = true) :
    (upsertA m k v).map Prod.fst = m.map Prod.fst := by
  unfold upsertA
  rw [if_pos h, List.map_map]
  refine List.map_congr_left (fun p _ => ?_)
  by_cases hpk : p.1 = k
  · simp [hpk]
  · simp [hpk]

theorem upsertA_keys_of_miss {β : Type} (m : List (String × β)) (k : String)
    (v : β) (h : ¬ m.any (fun p => decide (p.1 = k)) = true) :
    (upsertA m k v).map Prod.fst = m.map Prod.fst ++ [k] := by
  unfold upsertA
  rw [if_neg h, List.map_append]
  rfl

theorem upsertA_keys_nodup {β : Type} {m : List (String × β)} {k : String}
    {v : β} (hm : (m.map Prod.fst).Nodup) :
    ((upsertA m k v).map Prod.fst).Nodup := by
  by_cases h : m.any (fun p => decide (p.1 = k)) = true
  · rw [upsertA_keys_of_hit m k v h]; exact hm
  · rw [upsertA_keys_of_miss m k v h, List.nodup_append]
    refine ⟨hm, List.nodup_singleton k, fun a ha hb => ?_⟩
    rw [List.mem_singleton.1 hb] at ha
    rcases List.mem_map.1 ha with ⟨p, hp, hpk⟩
    exact h (List.any_eq_true.2 ⟨p, hp, by simp [hpk]⟩)

theorem alookup_eq_some_mem {β : Type} {m : List (String × β)} {k : String}
    {v : β} (h : alookup m k = some v) : (k, v) ∈ m := by
  unfold alookup at h
  rcases Option.map_eq_some'.1 h with ⟨p, hfind, hv⟩
  have hk : p.1 = k := by simpa using List.find?_some hfind
  have hm : p ∈ m := List.mem_of_find?_eq_some hfind
  have : p = (k, v) := Prod.ext hk hv
  rw [← this]; exact hm

theorem bm25_search_pos {rawScores : List ℚ} {topK : ℕ} {h : Bm25Hit}
    (hh : h ∈ bm25_search rawScores topK) : 0 < h.score := by
  unfold bm25_search at hh
  have h1 := mem_sortDescBy.1 (List.mem_of_mem_take hh)
  rcases List.mem_map.1 h1 with ⟨p, hp, rfl⟩
  have := List.of_mem_filter hp
  simpa using this

theorem bm25_map_pos_aux {hits : List Bm25Hit} {metadata : List ChunkMeta}
    {m : List (String × ℚ)} (hm : ∀ p ∈ m, 0 < p.2)
    (hpos : ∀ h ∈ hits, 0 < h.score) :
    ∀ p ∈ hits.foldl
      (fun m h =>
        if h.index < metadata.length then
          if (metadata.getD h.index ⟨"", ""⟩).chunk_id ≠ "" then
            upsertA m (metadata.getD h.index ⟨"", ""⟩).chunk_id h.score
          else m
        else m) m, 0 < p.2 := by
  induction hits generalizing m with
  | nil => exact hm
  | cons h t ih =>
    intro p hp
    rw [List.foldl_cons] at hp
    refine ih ?_ (fun x hx => hpos x (List.mem_cons_of_mem h hx)) p hp
    intro q hq
    by_cases h1 : h.index < metadata.length
    · rw [if_pos h1] at hq
      by_cases h2 : (metadata.getD h.index ⟨"", ""⟩).chunk_id ≠ ""
      · rw [if_pos h2] at hq
        rcases mem_upsertA hq with h3 | h3
        · exact hm q h3
        · rw [h3]; exact hpos h (List.mem_cons_self h t)
      · rw [if_neg h2] at hq; exact hm q hq
    · rw [if_neg h1] at hq; exact hm q hq

theorem bm25_map_pos {metadata : List ChunkMeta} {hits : List Bm25Hit}
    (hpos : ∀ h ∈ hits, 0 < h.score) :
    ∀ p ∈ bm25_map metadata hits, 0 < p.2 :=
  bm25_map_pos_aux (fun p hp => absurd hp (List.not_mem_nil p)) hpos

theorem getD_bounds01 {l : List ℚ} (h : ∀ x ∈ l, 0 ≤ x ∧ x ≤ 1) (i : ℕ) :
    0 ≤ l.getD i 0 ∧ l.getD i 0 ≤ 1 := by
  rcases Nat.lt_or_ge i l.length with hi | hi
  · rw [List.getD_eq_getElem _ _ hi]
    exact h _ (List.getElem_mem hi)
  · rw [List.getD_eq_default _ _ hi]
    exact ⟨le_refl 0, zero_le_one⟩

theorem fuse_entry_fields (alpha : ℚ) (nvs : List ℚ)
    (bmap : List (String × ℚ)) (nbs : List ℚ) (idx : ℕ) (r : VecResult) :
    (fuse_entry alpha nvs bmap nbs idx r).chunk_id = r.chunk_id
    ∧ (fuse_entry alpha nvs bmap nbs idx r).content = r.content
    ∧ (fuse_entry alpha nvs bmap nbs idx r).vector_score
        = some (nvs.getD idx 0)
    ∧ ∃ b, (fuse_entry alpha nvs bmap nbs idx r).bm25_score = some b
        ∧ (fuse_entry alpha nvs bmap nbs idx r).score
            = alpha * nvs.getD idx 0 + (1 - alpha) * b :=
  ⟨rfl, rfl, rfl, _, rfl, rfl⟩

theorem fuse_entry_absent (alpha : ℚ) (nvs : List ℚ)
    (bmap : List (String × ℚ)) (nbs : List ℚ) (idx : ℕ) (r : VecResult)
    (h : alookup bmap r.chunk_id = none) :
    (fuse_entry alpha nvs bmap nbs idx r).bm25_score = some 0 := by
  unfold fuse_entry
  rw [h]
  simp

theorem fuse_entry_bs_bounds {alpha : ℚ} {nvs : List ℚ}
    {bmap : List (String × ℚ)} {nbs : List ℚ} (idx : ℕ) (r : VecResult)
    (hpos : ∀ p ∈ bmap, 0 < p.2) (hnil : nbs = [] → bmap = [])
    (hb : ∀ x ∈ nbs, 0 ≤ x ∧ x ≤ 1) :
    ∃ b, (fuse_entry alpha nvs bmap nbs idx r).bm25_score = some b
      ∧ 0 ≤ b ∧ b ≤ 1 := by
  have hbm : (fuse_entry alpha nvs bmap nbs idx r).bm25_score
      = some (if 0 < (alookup bmap r.chunk_id).getD 0 ∧ nbs ≠ []
              then nbs.getD (keyIdx bmap r.chunk_id) 0
              else (alookup bmap r.chunk_id).getD 0) := rfl
  by_cases hc : 0 < (alookup bmap r.chunk_id).getD 0 ∧ nbs ≠ []
  · rw [hbm, if_pos hc]
    exact ⟨_, rfl, getD_bounds01 hb _⟩
  · rw [hbm, if_neg hc]
    refine ⟨_, rfl, ?_⟩
    rcases hl : alookup bmap r.chunk_id with _ | v
    · exact ⟨le_refl 0, zero_le_one⟩
    · have hv : 0 < v := hpos _ (alookup_eq_some_mem hl)
      rcases Decidable.em (nbs = []) with hn | hn
      · have hmem : (r.chunk_id, v) ∈ bmap := alookup_eq_some_mem hl
        rw [hnil hn] at hmem
        cases hmem
      · exact absurd ⟨by rw [hl]; simpa using hv, hn⟩ hc

theorem fuse_entry_present {alpha : ℚ} {nvs : List ℚ}
    {bmap : List (String × ℚ)} {nbs : List ℚ} (idx : ℕ) (r : VecResult)
    (v : ℚ) (hl : alookup bmap r.chunk_id = some v) (hv : 0 < v)
    (hnbs : nbs ≠ []) :
    (fuse_entry alpha nvs bmap nbs idx r).bm25_score
      = some (nbs.getD (keyIdx bmap r.chunk_id) 0) := by
  have hbm : (fuse_entry alpha nvs bmap nbs idx r).bm25_score
      = some (if 0 < (alookup bmap r.chunk_id).getD 0 ∧ nbs ≠ []
              then nbs.getD (keyIdx bmap r.chunk_id) 0
              else (alookup bmap r.chunk_id).getD 0) := rfl
  rw [hbm, if_pos ⟨by rw [hl]; exact hv, hnbs⟩]

theorem combine_fold_mem {alpha : ℚ} {nvs : List ℚ}
    {bmap : List (String × ℚ)} {nbs : List ℚ} :
    ∀ (rs : List VecResult) (i : ℕ) (cmap : List (String × Entry))
      {p : String × Entry}, p ∈ combine_fold alpha nvs bmap nbs i rs cmap →
      p ∈ cmap ∨ ∃ j r, rs.get? j = some r
        ∧ p = (r.chunk_id, fuse_entry alpha nvs bmap nbs (i + j) r) := by
  intro rs
  induction rs with
  | nil => intro i cmap p hp; exact Or.inl hp
  | cons r t ih =>
    intro i cmap p hp
    rw [combine_fold] at hp
    rcases ih (i + 1) _ hp with h | ⟨j, r', hj, hp'⟩
    · rcases mem_upsertA h with h1 | h1
      · exact Or.inl h1
      · exact Or.inr ⟨0, r, rfl, by rw [h1, Nat.add_zero]⟩
    · refine Or.inr ⟨j + 1, r', by simpa using hj, ?_⟩
      rw [hp', Nat.add_assoc, Nat.add_comm 1 j]

theorem combine_fold_keys_nodup {alpha : ℚ} {nvs : List ℚ}
    {bmap : List (String × ℚ)} {nbs : List ℚ} :
    ∀ (rs : List VecResult) (i : ℕ) (cmap : List (String × Entry)),
      (cmap.map Prod.fst).Nodup →
      ((combine_fold alpha nvs bmap nbs i rs cmap).map Prod.fst).Nodup := by
  intro rs
  induction rs with
  | nil => intro i cmap h; exact h
  | cons r t ih =>
    intro i cmap h
    rw [combine_fold]
    exact ih (i + 1) _ (upsertA_keys_nodup h)

theorem combine_pre_mem {alpha : ℚ} {vectorResults : List VecResult}
    {bm25Hits : List Bm25Hit} {metadata : List ChunkMeta} {e : Entry}
    (he : e ∈ combine_pre alpha vectorResults bm25Hits metadata) :
    ∃ j r, vectorResults.get? j = some r
      ∧ e = fuse_entry alpha
          (normalize_scores (vectorResults.map (fun r => r.score)))
          (bm25_map metadata bm25Hits)
          (if (bm25_map metadata bm25Hits).map (fun p => p.2) = [] then []
           else normalize_scores ((bm25_map metadata bm25Hits).map (fun p => p.2)))
          j r := by
  unfold combine_pre at he
  rcases List.mem_map.1 he with ⟨p, hp, rfl⟩
  rcases combine_fold_mem _ 0 _ hp with h | ⟨j, r, hj, hp'⟩
  · cases h
  · exact ⟨j, r, hj, by rw [hp', Nat.zero_add]⟩

theorem combine_pre_chunk_ids_nodup (alpha : ℚ)
    (vectorResults : List VecResult) (bm25Hits : List Bm25Hit)
    (metadata : List ChunkMeta) :
    ((combine_pre alpha vectorResults bm25Hits metadata).map
      (fun e => e.chunk_id)).Nodup := by
  unfold combine_pre
  rw [List.map_map]
  have hkeys : ∀ p ∈ combine_fold alpha
      (normalize_scores (vectorResults.map (fun r => r.score)))
      (bm25_map metadata bm25Hits)
      (if (bm25_map metadata bm25Hits).map (fun p => p.2) = [] then []
       else normalize_scores ((bm25_map metadata bm25Hits).map (fun p => p.2)))
      0 vectorResults [], ((fun e => e.chunk_id) ∘ Prod.snd) p = Prod.fst p := by
    intro p hp
    rcases combine_fold_mem _ 0 _ hp with h | ⟨j, r, _, hp'⟩
    · cases h
    · rw [hp']
      rfl
  rw [List.map_congr_left hkeys]
  exact combine_fold_keys_nodup _ 0 [] List.nodup_nil

theorem guarded_normalize_bounds (l : List ℚ) :
    ∀ x ∈ (if l = [] then [] else normalize_scores l), 0 ≤ x ∧ x ≤ 1 := by
  by_cases h : l = []
  · rw [if_pos h]; intro x hx; cases hx
  · rw [if_neg h]; intro x hx; exact normalize_scores_mem_bounds hx

theorem guarded_normalize_nil {l : List ℚ}
    (h : (if l = [] then [] else normalize_scores l) = []) : l = [] := by
  by_cases hl : l = []
  · exact hl
  · rw [if_neg hl] at h
    exact (normalize_scores_nil_iff l).1 h

theorem combine_pre_score_nonneg {alpha : ℚ} {vectorResults : List VecResult}
    {bm25Hits : List Bm25Hit} {metadata : List ChunkMeta}
    (halpha : 0 ≤ alpha ∧ alpha ≤ 1) (hpos : ∀ h ∈ bm25Hits, 0 < h.score) :
    ∀ e ∈ combine_pre alpha vectorResults bm25Hits metadata, 0 ≤ e.score := by
  intro e he
  rcases combine_pre_mem he with ⟨j, r, _, rfl⟩
  obtain ⟨_, _, _, b, hbs, hscore⟩ :=
    fuse_entry_fields alpha
      (normalize_scores (vectorResults.map (fun r => r.score)))
      (bm25_map metadata bm25Hits)
      (if (bm25_map metadata bm25Hits).map (fun p => p.2) = [] then []
       else normalize_scores ((bm25_map metadata bm25Hits).map (fun p => p.2)))
      j r
  obtain ⟨b', hbs', hb0, _⟩ :=
    @fuse_entry_bs_bounds alpha
      (normalize_scores (vectorResults.map (fun r => r.score)))
      (bm25_map metadata bm25Hits)
      (if (bm25_map metadata bm25Hits).map (fun p => p.2) = [] then []
       else normalize_scores ((bm25_map metadata bm25Hits).map (fun p => p.2)))
      j r (bm25_map_pos hpos)
      (fun hn => List.map_eq_nil_iff.1 (guarded_normalize_nil hn))
      (guarded_normalize_bounds _)
  have hbb : b = b' := Option.some.inj (hbs.symm.trans hbs')
  rw [hscore, hbb]
  exact add_nonneg (mul_nonneg halpha.1 (normalize_scores_getD_bounds _ j).1)
    (mul_nonneg (sub_nonneg.2 halpha.2) hb0)

theorem mem_apply_threshold {threshold : Option ℚ} {l : List Entry} {e : Entry}
    (he : e ∈ apply_threshold threshold l) : e ∈ l := by
  cases threshold with
  | none => exact he
  | some t =>
    simp only [apply_threshold] at he
    by_cases ht : t ≠ 0
    · rw [if_pos ht] at he
      exact List.mem_of_mem_filter he
    · rw [if_neg ht] at he
      exact he

theorem apply_threshold_ge {t : ℚ} {l : List Entry} {e : Entry}
    (hnn : ∀ x ∈ l, 0 ≤ x.score) (he : e ∈ apply_threshold (some t) l) :
    t ≤ e.score := by
  simp only [apply_threshold] at he
  by_cases ht : t ≠ 0
  · rw [if_pos ht] at he
    simpa using List.of_mem_filter he
  · rw [if_neg ht] at he
    rw [not_not.1 ht]
    exact hnn e he

theorem apply_threshold_sublist (threshold : Option ℚ) (l : List Entry) :
    List.Sublist (apply_threshold threshold l) l := by
  cases threshold with
  | none => exact List.Sublist.refl l
  | some t =>
    by_cases ht : t = 0
    · have h : apply_threshold (some t) l = l := by simp [apply_threshold, ht]
      rw [h]
    · have h : apply_threshold (some t) l
          = l.filter (fun e => decide (t ≤ e.score)) := by
        simp [apply_threshold, ht]
      rw [h]
      exact List.filter_sublist l

theorem hybrid_search_true (alpha : ℚ) (topK : ℕ) (threshold : Option ℚ)
    (vor vr : List VecResult) (raw : List ℚ) (stale : List ChunkMeta)
    (buildFails : Bool) :
    hybrid_search true alpha topK threshold vor vr raw stale buildFails
      = hybrid_search_inner alpha topK threshold vr raw stale buildFails := rfl

theorem hybrid_search_inner_no_fail (alpha : ℚ) (topK : ℕ)
    (threshold : Option ℚ) (vr : List VecResult) (raw : List ℚ)
    (stale : List ChunkMeta) :
    hybrid_search_inner alpha topK threshold vr raw stale false
      = (apply_threshold threshold
          (combine_results alpha vr (bm25_search raw (topK * 2))
            (hybrid_metadata vr stale))).take topK := by
  unfold hybrid_search_inner
  rw [if_neg]
  intro h
  exact Bool.false_ne_true h.2

theorem mem_hybrid_no_fail {alpha : ℚ} {topK : ℕ} {threshold : Option ℚ}
    {vor vr : List VecResult} {raw : List ℚ} {stale : List ChunkMeta}
    {e : Entry} (he : e ∈ hybrid_search true alpha topK threshold vor vr raw stale false) :
    e ∈ combine_pre alpha vr (bm25_search raw (topK * 2))
        (hybrid_metadata vr stale) := by
  rw [hybrid_search_true, hybrid_search_inner_no_fail] at he
  exact mem_sortDescBy.1
    (mem_apply_threshold (List.mem_of_mem_take he))

/-! ## Claim theorems -/

/-- C3: normalize returns a sequence of the same length and positional order
with every element in [0,1], computed by min-max scaling
(s - min) / (max - min); when all elements are equal (including a singleton
sequence) every output element is 1.0; and the empty input yields the empty
output. -/
theorem C3_normalize_minmax (scores : List ℚ) :
    (normalize_scores scores).length = scores.length
    ∧ (∀ x ∈ normalize_scores scores, 0 ≤ x ∧ x ≤ 1)
    ∧ (scores = [] → normalize_scores scores = [])
    ∧ ((∀ x ∈ scores, ∀ y ∈ scores, x = y) →
        normalize_scores scores = List.replicate scores.length 1)
    ∧ ((¬ ∀ x ∈ scores, ∀ y ∈ scores, x = y) → ∀ i, i < scores.length →
        (normalize_scores scores).getD i 0
          = (scores.getD i 0 - py_min scores) / (py_max scores - py_min scores)) := by
  refine ⟨normalize_scores_length scores, fun x hx => normalize_scores_mem_bounds hx,
    fun h => by rw [h]; rfl, fun h => ?_, fun h => normalize_scores_minmax h⟩
  rcases Decidable.em (scores = []) with hn | hn
  · rw [hn]; rfl
  · exact normalize_scores_all_eq h hn

/-- Witness for C3: the all-equal, singleton and two-element instances,
obtained from the theorem at concrete inputs. -/
theorem C3_normalize_minmax_witness :
    normalize_scores [(3:ℚ), 3, 3] = List.replicate 3 1
    ∧ normalize_scores [(5:ℚ)] = List.replicate 1 1
    ∧ (normalize_scores [(5:ℚ), 3]).getD 0 0
        = (([(5:ℚ), 3].getD 0 0 - py_min [5, 3]) / (py_max [5, 3] - py_min [5, 3])) := by
  refine ⟨(C3_normalize_minmax [3, 3, 3]).2.2.2.1 ?_,
    (C3_normalize_minmax [5]).2.2.2.1 ?_,
    (C3_normalize_minmax [5, 3]).2.2.2.2 ?_ 0 (by norm_num)⟩
  · intro x hx y hy
    simp only [List.mem_cons, List.not_mem_nil, or_false] at hx hy
    rcases hx with rfl | rfl | rfl <;> rcases hy with rfl | rfl | rfl <;> rfl
  · intro x hx y hy
    simp only [List.mem_cons, List.not_mem_nil, or_false] at hx hy
    rw [hx, hy]
  · intro h
    have h53 := h 5 (by simp) 3 (by simp)
    norm_num at h53

/-- C1: for a hybrid search call (useHybrid = true, lexical build succeeding)
with weight alpha in [0,1], every returned candidate is drawn from the
vector-search candidate set, its recorded vector score is the positional
min-max-normalized vector score, its fused score equals
alpha * normVector + (1 - alpha) * normLexical, and a candidate absent from
the lexical (BM25) result map contributes normLexical = 0. -/
theorem C1_hybrid_fusion_formula (alpha : ℚ) (topK : ℕ) (threshold : Option ℚ)
    (vor vr : List VecResult) (raw : List ℚ) (stale : List ChunkMeta)
    (halpha : 0 ≤ alpha ∧ alpha ≤ 1) (e : Entry)
    (he : e ∈ hybrid_search true alpha topK threshold vor vr raw stale false) :
    ∃ i r, vr.get? i = some r ∧ e.chunk_id = r.chunk_id
      ∧ e.vector_score
          = some ((normalize_scores (vr.map (fun s => s.score))).getD i 0)
      ∧ (∃ vs b, e.vector_score = some vs ∧ e.bm25_score = some b
          ∧ e.score = alpha * vs + (1 - alpha) * b)
      ∧ (alookup (bm25_map (hybrid_metadata vr stale)
            (bm25_search raw (topK * 2))) e.chunk_id = none
          → e.bm25_score = some 0)
      ∧ (∀ v, alookup (bm25_map (hybrid_metadata vr stale)
            (bm25_search raw (topK * 2))) e.chunk_id = some v
          → e.bm25_score = some
              ((if (bm25_map (hybrid_metadata vr stale)
                    (bm25_search raw (topK * 2))).map (fun p => p.2) = []
                then []
                else normalize_scores ((bm25_map (hybrid_metadata vr stale)
                    (bm25_search raw (topK * 2))).map (fun p => p.2))).getD
                (keyIdx (bm25_map (hybrid_metadata vr stale)
                  (bm25_search raw (topK * 2))) e.chunk_id) 0)) := by
  have he' := mem_hybrid_no_fail he
  rcases combine_pre_mem he' with ⟨j, r, hj, rfl⟩
  obtain ⟨hcid, _, hvs, b, hbs, hscore⟩ :=
    fuse_entry_fields alpha (normalize_scores (vr.map (fun r => r.score)))
      (bm25_map (hybrid_metadata vr stale) (bm25_search raw (topK * 2)))
      (if (bm25_map (hybrid_metadata vr stale)
            (bm25_search raw (topK * 2))).map (fun p => p.2) = [] then []
       else normalize_scores ((bm25_map (hybrid_metadata vr stale)
            (bm25_search raw (topK * 2))).map (fun p => p.2)))
      j r
  refine ⟨j, r, hj, hcid, hvs, ⟨_, b, hvs, hbs, hscore⟩, fun hnone => ?_,
    fun v hv => ?_⟩
  · rw [hcid] at hnone
    exact fuse_entry_absent alpha _ _ _ j r hnone
  · rw [hcid] at hv
    have hvpos : 0 < v :=
      bm25_map_pos (fun h hh => bm25_search_pos hh) _ (alookup_eq_some_mem hv)
    have hnbs : (if (bm25_map (hybrid_metadata vr stale)
          (bm25_search raw (topK * 2))).map (fun p => p.2) = [] then []
        else normalize_scores ((bm25_map (hybrid_metadata vr stale)
          (bm25_search raw (topK * 2))).map (fun p => p.2))) ≠ [] := by
      intro hn
      have hbm0 : bm25_map (hybrid_metadata vr stale)
          (bm25_search raw (topK * 2)) = [] :=
        List.map_eq_nil_iff.1 (guarded_normalize_nil hn)
      rw [hbm0] at hv
      exact Option.noConfusion hv
    rw [hcid]
    exact fuse_entry_present j r v hv hvpos hnbs

/-- Witness for C1: a singleton candidate set, alpha = 1, no lexical hits;
the single returned entry is the fused form of the sole vector candidate. -/
theorem C1_hybrid_fusion_formula_witness :
    ∃ i r, [VecResult.mk "a" "x" 1].get? i = some r
      ∧ (Entry.mk "a" "x" 1 (some 1) (some 0)).chunk_id = r.chunk_id
      ∧ (Entry.mk "a" "x" 1 (some 1) (some 0)).vector_score
          = some ((normalize_scores ([VecResult.mk "a" "x" 1].map
              (fun s => s.score))).getD i 0)
      ∧ (∃ vs b, (Entry.mk "a" "x" 1 (some 1) (some 0)).vector_score = some vs
          ∧ (Entry.mk "a" "x" 1 (some 1) (some 0)).bm25_score = some b
          ∧ (Entry.mk "a" "x" 1 (some 1) (some 0)).score
              = 1 * vs + (1 - 1) * b)
      ∧ (alookup (bm25_map (hybrid_metadata [VecResult.mk "a" "x" 1] [])
            (bm25_search [] (1 * 2)))
            (Entry.mk "a" "x" 1 (some 1) (some 0)).chunk_id = none
          → (Entry.mk "a" "x" 1 (some 1) (some 0)).bm25_score = some 0)
      ∧ (∀ v, alookup (bm25_map (hybrid_metadata [VecResult.mk "a" "x" 1] [])
            (bm25_search [] (1 * 2)))
            (Entry.mk "a" "x" 1 (some 1) (some 0)).chunk_id = some v
          → (Entry.mk "a" "x" 1 (some 1) (some 0)).bm25_score = some
              ((if (bm25_map (hybrid_metadata [VecResult.mk "a" "x" 1] [])
                    (bm25_search [] (1 * 2))).map (fun p => p.2) = []
                then []
                else normalize_scores
                  ((bm25_map (hybrid_metadata [VecResult.mk "a" "x" 1] [])
                    (bm25_search [] (1 * 2))).map (fun p => p.2))).getD
                (keyIdx (bm25_map (hybrid_metadata [VecResult.mk "a" "x" 1] [])
                  (bm25_search [] (1 * 2)))
                  (Entry.mk "a" "x" 1 (some 1) (some 0)).chunk_id) 0)) := by
  have hrun : hybrid_search true 1 1 none [] [VecResult.mk "a" "x" 1] [] [] false
      = [Entry.mk "a" "x" 1 (some 1) (some 0)] := by
    norm_num [hybrid_search, hybrid_search_inner, apply_threshold,
      combine_results, combine_pre, combine_fold, bm25_search, bm25_map,
      enumFromN, sortDescBy, List.insertionSort, upsertA, fuse_entry, alookup,
      keyIdx, normalize_scores, py_min, py_max, hybrid_metadata, build_metadata]
  exact C1_hybrid_fusion_formula 1 1 none [] [VecResult.mk "a" "x" 1] [] []
    ⟨by norm_num, by norm_num⟩ (Entry.mk "a" "x" 1 (some 1) (some 0))
    (by rw [hrun]; exact List.mem_singleton.2 rfl)

/-- C2: hybrid results (lexical build succeeding) are sorted descending by
fused score; with a stable sort the relative vector-stage order is preserved
on ties; entries below a given threshold are dropped; and at most topK
entries are returned. -/
theorem C2_hybrid_ordering (alpha : ℚ) (topK : ℕ) (threshold : Option ℚ)
    (vor vr : List VecResult) (raw : List ℚ) (stale : List ChunkMeta)
    (halpha : 0 ≤ alpha ∧ alpha ≤ 1) :
    List.Sorted (fun a b : Entry => b.score ≤ a.score)
        (hybrid_search true alpha topK threshold vor vr raw stale false)
    ∧ (∀ t, threshold = some t →
        ∀ e ∈ hybrid_search true alpha topK threshold vor vr raw stale false,
          t ≤ e.score)
    ∧ (hybrid_search true alpha topK threshold vor vr raw stale false).length
        ≤ topK
    ∧ hybrid_search true alpha topK threshold vor vr raw stale false
        = (apply_threshold threshold
            (sortDescBy (fun e => e.score)
              (combine_pre alpha vr (bm25_search raw (topK * 2))
                (hybrid_metadata vr stale)))).take topK
    ∧ (∀ c : ℚ,
        (sortDescBy (fun e => e.score)
            (combine_pre alpha vr (bm25_search raw (topK * 2))
              (hybrid_metadata vr stale))).filter
            (fun e => decide (e.score = c))
          = (combine_pre alpha vr (bm25_search raw (topK * 2))
              (hybrid_metadata vr stale)).filter
              (fun e => decide (e.score = c))) := by
  have heq : hybrid_search true alpha topK threshold vor vr raw stale false
      = (apply_threshold threshold
          (sortDescBy (fun e => e.score)
            (combine_pre alpha vr (bm25_search raw (topK * 2))
              (hybrid_metadata vr stale)))).take topK := by
    rw [hybrid_search_true, hybrid_search_inner_no_fail]
    rfl
  have hsub : List.Sublist
      (hybrid_search true alpha topK threshold vor vr raw stale false)
      (sortDescBy (fun e => e.score)
        (combine_pre alpha vr (bm25_search raw (topK * 2))
          (hybrid_metadata vr stale))) := by
    rw [heq]
    exact (List.take_sublist _ _).trans (apply_threshold_sublist _ _)
  refine ⟨?_, ?_, ?_, heq, fun c => sortDescBy_stable _ _ c⟩
  · exact List.Pairwise.sublist hsub (sortDescBy_sorted _ _)
  · intro t ht e he
    rw [heq, ht] at he
    refine apply_threshold_ge (fun x hx => ?_) (List.mem_of_mem_take he)
    exact combine_pre_score_nonneg halpha (fun h hh => bm25_search_pos hh) x
      (mem_sortDescBy.1 hx)
  · rw [heq, List.length_take]
    exact min_le_left _ _

/-- Witness for C2 at a concrete configuration (alpha = 7/10, topK = 10,
threshold 9/10, empty collaborator responses). -/
theorem C2_hybrid_ordering_witness :
    List.Sorted (fun a b : Entry => b.score ≤ a.score)
        (hybrid_search true (7/10) 10 (some (9/10)) [] [] [] [] false)
    ∧ (∀ t, (some (9/10) : Option ℚ) = some t →
        ∀ e ∈ hybrid_search true (7/10) 10 (some (9/10)) [] [] [] [] false,
          t ≤ e.score)
    ∧ (hybrid_search true (7/10) 10 (some (9/10)) [] [] [] [] false).length
        ≤ 10
    ∧ hybrid_search true (7/10) 10 (some (9/10)) [] [] [] [] false
        = (apply_threshold (some (9/10))
            (sortDescBy (fun e => e.score)
              (combine_pre (7/10) [] (bm25_search [] (10 * 2))
                (hybrid_metadata [] [])))).take 10
    ∧ (∀ c : ℚ,
        (sortDescBy (fun e => e.score)
            (combine_pre (7/10) [] (bm25_search [] (10 * 2))
              (hybrid_metadata [] []))).filter
            (fun e => decide (e.score = c))
          = (combine_pre (7/10) [] (bm25_search [] (10 * 2))
              (hybrid_metadata [] [])).filter
              (fun e => decide (e.score = c))) :=
  C2_hybrid_ordering (7/10) 10 (some (9/10)) [] [] [] []
    ⟨by norm_num, by norm_num⟩

/-- C9: when a threshold is given and every fused score lies strictly below
it, the hybrid search (lexical build succeeding) returns the empty list — a
valid response, not an error. -/
theorem C9_all_below_threshold_empty (alpha : ℚ) (topK : ℕ) (t : ℚ)
    (vor vr : List VecResult) (raw : List ℚ) (stale : List ChunkMeta)
    (halpha : 0 ≤ alpha ∧ alpha ≤ 1)
    (hall : ∀ e ∈ combine_results alpha vr (bm25_search raw (topK * 2))
        (hybrid_metadata vr stale), e.score < t) :
    hybrid_search true alpha topK (some t) vor vr raw stale false = [] := by
  rw [hybrid_search_true, hybrid_search_inner_no_fail]
  by_cases hne : combine_results alpha vr (bm25_search raw (topK * 2))
      (hybrid_metadata vr stale) = []
  · rw [hne]
    simp [apply_threshold]
  · obtain ⟨e0, he0⟩ := List.exists_mem_of_ne_nil _ hne
    have h0 : 0 ≤ e0.score :=
      combine_pre_score_nonneg halpha (fun h hh => bm25_search_pos hh) e0
        (mem_sortDescBy.1 he0)
    have ht0 : t ≠ 0 := by
      intro h
      rw [h] at hall
      exact absurd (hall e0 he0) (not_lt.2 h0)
    have hfil : apply_threshold (some t)
        (combine_results alpha vr (bm25_search raw (topK * 2))
          (hybrid_metadata vr stale)) = [] := by
      simp only [apply_threshold, if_pos ht0]
      rw [List.filter_eq_nil_iff]
      intro e he
      simpa using not_le.2 (hall e he)
    rw [hfil]
    simp

/-- Witness for C9: empty candidate set, threshold 9/10; the result is empty. -/
theorem C9_all_below_threshold_empty_witness :
    hybrid_search true (7/10) 10 (some (9/10)) [] [] [] [] false = [] :=
  C9_all_below_threshold_empty (7/10) 10 (9/10) [] [] [] []
    ⟨by norm_num, by norm_num⟩
    (fun e he => absurd he (List.not_mem_nil e))

/-- C10: in hybrid mode (lexical build succeeding) the returned chunk ids are
pairwise distinct: vector candidates sharing a chunk_id collapse to one
entry through the chunk_id-keyed combined map. -/
theorem C10_chunk_ids_nodup (alpha : ℚ) (topK : ℕ) (threshold : Option ℚ)
    (vor vr : List VecResult) (raw : List ℚ) (stale : List ChunkMeta) :
    ((hybrid_search true alpha topK threshold vor vr raw stale false).map
      (fun e => e.chunk_id)).Nodup := by
  have h1 : ((combine_pre alpha vr (bm25_search raw (topK * 2))
      (hybrid_metadata vr stale)).map (fun e => e.chunk_id)).Nodup :=
    combine_pre_chunk_ids_nodup alpha vr (bm25_search raw (topK * 2))
      (hybrid_metadata vr stale)
  have h2 : ((sortDescBy (fun e => e.score)
      (combine_pre alpha vr (bm25_search raw (topK * 2))
        (hybrid_metadata vr stale))).map (fun e => e.chunk_id)).Nodup :=
    ((sortDescBy_perm _ _).map (fun e : Entry => e.chunk_id)).nodup_iff.2 h1
  have hsub : List.Sublist
      (hybrid_search true alpha topK threshold vor vr raw stale false)
      (sortDescBy (fun e => e.score)
        (combine_pre alpha vr (bm25_search raw (topK * 2))
          (hybrid_metadata vr stale))) := by
    rw [hybrid_search_true, hybrid_search_inner_no_fail]
    exact (List.take_sublist _ _).trans (apply_threshold_sublist _ _)
  exact List.Nodup.sublist (hsub.map (fun e : Entry => e.chunk_id)) h2

/-- Counterexample for C4 as stated: when the lexical-index build raises, the
code returns the raw vector hits truncated to topK — the scores are not
min-max normalized (they stay 5 and 3 where normalization would give 1 and 0)
and no lexical score field is attached (bm25_score is none, not 0). -/
theorem C4_counterexample :
    (hybrid_search true (7/10) 10 none []
        [VecResult.mk "a" "x" 5, VecResult.mk "b" "y" 3] [] [] true).map
        (fun e => (e.score, e.bm25_score))
      = [(5, none), (3, none)]
    ∧ normalize_scores [5, 3] = [1, 0] := by
  constructor
  · rfl
  · norm_num [normalize_scores, py_min, py_max]

/-- C4 (amended): if the lexical-index build step throws during a hybrid
search call with a nonempty vector candidate set, the call still returns the
vector-only ranked results without failing — namely vector_results[:topK]
verbatim: raw store scores, no normalization, no lexical score field, and the
score threshold not applied. -/
theorem C4_build_failure_degrades (alpha : ℚ) (topK : ℕ)
    (threshold : Option ℚ) (vor vr : List VecResult) (raw : List ℚ)
    (stale : List ChunkMeta) (hvr : vr ≠ []) :
    hybrid_search true alpha topK threshold vor vr raw stale true
      = (vr.take topK).map VecResult.toEntry := by
  rw [hybrid_search_true]
  unfold hybrid_search_inner
  rw [if_pos ⟨hvr, rfl⟩]

/-- Witness for C4 (amended) at a concrete nonempty candidate set. -/
theorem C4_build_failure_degrades_witness :
    hybrid_search true (7/10) 1 none [] [VecResult.mk "a" "x" 5] [] [] true
      = ([VecResult.mk "a" "x" 5].take 1).map VecResult.toEntry :=
  C4_build_failure_degrades (7/10) 1 none [] [VecResult.mk "a" "x" 5] [] []
    (List.cons_ne_nil _ _)

/-- C8: running hybrid search twice with identical query-derived inputs
(topK, threshold, useHybrid, fusion weight) and identical collaborator
responses (vector-store candidate lists, raw BM25 scores, cached metadata,
build outcome) yields identical ordered output. -/
theorem C8_two_run_deterministic (uh1 uh2 : Bool) (a1 a2 : ℚ) (k1 k2 : ℕ)
    (t1 t2 : Option ℚ) (vor1 vor2 vr1 vr2 : List VecResult)
    (raw1 raw2 : List ℚ) (st1 st2 : List ChunkMeta) (bf1 bf2 : Bool)
    (huh : uh1 = uh2) (ha : a1 = a2) (hk : k1 = k2) (ht : t1 = t2)
    (hvor : vor1 = vor2) (hvr : vr1 = vr2) (hraw : raw1 = raw2)
    (hst : st1 = st2) (hbf : bf1 = bf2) :
    hybrid_search uh1 a1 k1 t1 vor1 vr1 raw1 st1 bf1
      = hybrid_search uh2 a2 k2 t2 vor2 vr2 raw2 st2 bf2 := by
  subst huh ha hk ht hvor hvr hraw hst hbf
  rfl

/-- Witness for C8 at a concrete pair of identical runs. -/
theorem C8_two_run_deterministic_witness :
    hybrid_search true (7/10) 10 none [] [VecResult.mk "a" "x" 5] [2] [] false
      = hybrid_search true (7/10) 10 none [] [VecResult.mk "a" "x" 5] [2] []
          false :=
  C8_two_run_deterministic true true (7/10) (7/10) 10 10 none none [] []
    [VecResult.mk "a" "x" 5] [VecResult.mk "a" "x" 5] [2] [2] [] [] false
    false rfl rfl rfl rfl rfl rfl rfl rfl rfl

/-- C5: evaluation at the failing input.  In the character-token degraded
mode with maxSize 3, the splitter returns the whole 11-token text
"ab cd ef gh" as a single chunk: the first piece produced at a separator
level is never checked against the budget, so a text without the coarsest
separator is returned whole.  The chunk is over budget and is not a single
indivisible token (it splits at the space separator). -/
theorem C5_oversized_chunk_eval :
    split_text 3 0 default_separators ("ab cd ef gh".toList)
        = ["ab cd ef gh".toList]
    ∧ 3 < count_tokens ("ab cd ef gh".toList) := by
  constructor
  · decide
  · decide

/-- Counterexample for C6 as stated: the empty input yields a single empty
chunk, not the empty output (with the source defaults maxSize 500,
overlap 50). -/
theorem C6_counterexample :
    split_text 500 50 default_separators [] ≠ []
    ∧ split_text 500 50 default_separators [] = [[]] := by
  constructor
  · decide
  · decide

/-- C6 (amended): every text whose token count is at most maxSize — the empty
text included — yields exactly one chunk equal to the text, with no overlap
applied; the empty input therefore yields a singleton holding the empty
chunk rather than the empty sequence. -/
theorem C6_small_text_single_chunk (chunkSize overlap : ℕ)
    (seps : List (List Char)) (text : List Char)
    (h : count_tokens text ≤ chunkSize) :
    split_text chunkSize overlap seps text = [text] := by
  unfold split_text
  rw [if_pos h]

/-- Witness for C6 (amended) at a concrete small text. -/
theorem C6_small_text_single_chunk_witness :
    split_text 500 50 default_separators ("hi".toList) = ["hi".toList] :=
  C6_small_text_single_chunk 500 50 default_separators ("hi".toList)
    (by decide)

/-- C7: for every rerank call with positive topK (every call site passes a
validated top_k ≥ 1): the result length is at most
min(topK, len(candidates)); when the reranker is disabled (configuration or
startup load failure), the result is candidates[:topK] unchanged in order;
and when the model invocation fails transiently, the call returns the top
topK of the pre-rerank order. -/
theorem C7_rerank_contract (useRerank modelLoaded : Bool) (defk : ℕ)
    (documents : List RDoc) (k : ℕ) (predictResult : Option (List ℚ))
    (hk : 1 ≤ k) :
    (rerank useRerank modelLoaded defk documents (some k)
        predictResult).length ≤ min k documents.length
    ∧ ((useRerank = false ∨ modelLoaded = false) →
        rerank useRerank modelLoaded defk documents (some k) predictResult
          = documents.take k)
    ∧ (useRerank = true → modelLoaded = true → predictResult = none →
        rerank useRerank modelLoaded defk documents (some k) predictResult
          = documents.take k) := by
  have hk0 : k ≠ 0 := Nat.one_le_iff_ne_zero.1 hk
  by_cases hc : useRerank = false ∨ modelLoaded = false ∨ documents = []
  · have e1 : rerank useRerank modelLoaded defk documents (some k)
        predictResult = documents.take k := by
      unfold rerank
      rw [if_pos hc]
      exact if_pos hk0
    refine ⟨?_, fun _ => e1, fun _ _ _ => e1⟩
    rw [e1, List.length_take]
  · have hres : resolve_topk (some k) defk = k := by
      simp only [resolve_topk]
      rw [if_pos hk0]
    cases predictResult with
    | none =>
      have e1 : rerank useRerank modelLoaded defk documents (some k) none
          = documents.take k := by
        simp only [rerank]
        rw [if_neg hc, hres]
      refine ⟨?_, fun h2 => absurd (h2.imp id Or.inl) hc, fun _ _ _ => e1⟩
      rw [e1, List.length_take]
    | some scores =>
      have e1 : rerank useRerank modelLoaded defk documents (some k)
          (some scores)
          = (sortDescBy (fun d => d.rerank_score.getD 0)
              ((documents.zip scores).map
                (fun p => { p.1 with rerank_score := some p.2 }))).take k := by
        simp only [rerank]
        rw [if_neg hc, hres]
      refine ⟨?_, fun h2 => absurd (h2.imp id Or.inl) hc,
        fun _ _ hpr => Option.noConfusion hpr⟩
      rw [e1, List.length_take]
      have hlen : (sortDescBy (fun d => d.rerank_score.getD 0)
          ((documents.zip scores).map
            (fun p => { p.1 with rerank_score := some p.2 }))).length
          ≤ documents.length := by
        rw [(sortDescBy_perm _ _).length_eq, List.length_map,
          List.length_zip]
        exact min_le_left _ _
      exact min_le_min (le_refl k) hlen

/-- Witness for C7: disabled reranker, one candidate, topK = 2. -/
theorem C7_rerank_contract_witness :
    (rerank false false 3 [RDoc.mk "d" none] (some 2) none).length
        ≤ min 2 [RDoc.mk "d" none].length
    ∧ ((false = false ∨ false = false) →
        rerank false false 3 [RDoc.mk "d" none] (some 2) none
          = [RDoc.mk "d" none].take 2)
    ∧ (false = true → false = true → (none : Option (List ℚ)) = none →
        rerank false false 3 [RDoc.mk "d" none] (some 2) none
          = [RDoc.mk "d" none].take 2) :=
  C7_rerank_contract false false 3 [RDoc.mk "d" none] 2 none (by norm_num)

end RAGSpec
